import Mathlib

/-!
Verification development for the feed-generation pipeline in
src/scripts/generate_feeds.py.

The embedding is shallow: each Python function of the pipeline is translated
into an executable Lean definition over explicit data.  Machine strings are
Lean strings (lists of characters); Python `datetime` values are modelled as a
wall-clock instant in seconds together with an optional UTC-offset, and the
`dateutil` free-text parser, the compiled-regex search of the `re` module and
the JSON decoder are external collaborators of the pipeline, so they enter the
model as explicit parameters (an `Option` result standing for an exception).
The fragments of `urllib.parse` the pipeline calls (`urlparse`, `urljoin`,
`urlsplit`) are reimplemented here from CPython's pure-Python source, with two
deliberate simplifications: the model is total (the library's `ValueError`
paths for bracketed IPv6 hosts are not modelled) and case mappings are the
ASCII ones.
-/

/-! ## Python string primitives -/

/-- The whitespace characters of Python's `str.strip()` / regex `\s`
(ASCII whitespace, the C1 separators, and the Unicode space separators). -/
def pyIsSpace (c : Char) : Bool :=
  c = ' ' ∨ c = '\t' ∨ c = '\n' ∨ c = '\r' ∨ c = '\x0b' ∨ c = '\x0c' ∨
  c = '\x1c' ∨ c = '\x1d' ∨ c = '\x1e' ∨ c = '\x1f' ∨ c = '\x85' ∨
  c = ' ' ∨ c = ' ' ∨ (' ' ≤ c ∧ c ≤ ' ') ∨
  c = ' ' ∨ c = ' ' ∨ c = ' ' ∨ c = ' ' ∨ c = '　'

/-- Python `s.strip()` on a list of characters. -/
def pyStripL (l : List Char) : List Char :=
  ((l.dropWhile pyIsSpace).reverse.dropWhile pyIsSpace).reverse

/-- Python `s.strip()`. -/
def pyStrip (s : String) : String := ⟨pyStripL s.data⟩

/-- Python `s.rstrip("/")` on a list of characters. -/
def pyRStripSlashL (l : List Char) : List Char :=
  (l.reverse.dropWhile (fun c => c = '/')).reverse

/-- Replace every maximal run of characters satisfying `isRun` by the single
character `repl`: Python `re.sub(r"[-_]+", " ", s)` and `re.sub(r"\s+", " ", s)`.
The flag records whether the previous character belonged to a run. -/
def collapseRuns (isRun : Char → Bool) (repl : Char) : Bool → List Char → List Char
  | _, [] => []
  | inRun, c :: rest =>
    if isRun c then
      if inRun then collapseRuns isRun repl true rest
      else repl :: collapseRuns isRun repl true rest
    else c :: collapseRuns isRun repl false rest

/-- Python `s.title()` restricted to ASCII case mappings: a cased character is
uppercased when the previous character was not cased, lowercased otherwise. -/
def pyTitleL : Bool → List Char → List Char
  | _, [] => []
  | prevCased, c :: rest =>
    if c.isAlpha then
      (if prevCased then c.toLower else c.toUpper) :: pyTitleL true rest
    else c :: pyTitleL false rest

/-- Split at the first occurrence of `c` (Python `s.split(c, 1)` when it
occurs); `none` when `c` does not occur. -/
def splitFirstChar (c : Char) : List Char → Option (List Char × List Char)
  | [] => none
  | x :: xs =>
    if x = c then some ([], xs)
    else (splitFirstChar c xs).map (fun p => (x :: p.1, p.2))

/-- Split at the last occurrence of `c`; `none` when `c` does not occur. -/
def splitLastChar (c : Char) (l : List Char) : Option (List Char × List Char) :=
  match splitFirstChar c l.reverse with
  | some (brev, arev) => some (arev.reverse, brev.reverse)
  | none => none

/-- Python `s.split(c)` (all occurrences; the result is never empty). -/
def splitAllChar (c : Char) : List Char → List (List Char)
  | [] => [[]]
  | x :: xs =>
    let r := splitAllChar c xs
    if x = c then [] :: r
    else
      match r with
      | [] => [[x]]
      | h :: t => (x :: h) :: t

/-! ## The model of `urllib.parse` (CPython `Lib/urllib/parse.py`) -/

/-- `uses_relative` from `urllib.parse`. -/
def usesRelative : List String :=
  ["", "ftp", "http", "gopher", "nntp", "imap", "wais", "file", "https",
   "shttp", "mms", "prospero", "rtsp", "rtspu", "sftp", "svn", "svn+ssh",
   "ws", "wss"]

/-- `uses_netloc` from `urllib.parse`. -/
def usesNetloc : List String :=
  ["", "ftp", "http", "gopher", "nntp", "telnet", "imap", "wais", "file",
   "mms", "https", "shttp", "snews", "prospero", "rtsp", "rtspu", "rsync",
   "svn", "svn+ssh", "sftp", "nfs", "git", "git+ssh", "ws", "wss"]

/-- `uses_params` from `urllib.parse`. -/
def usesParams : List String :=
  ["", "ftp", "hdl", "prospero", "http", "imap", "mms", "news", "rtsp",
   "rtspu", "sip", "sips", "snews", "tel", "fax", "modem", "sftp", "https",
   "shttp"]

/-- The result of `urlparse`: scheme, netloc, path, params, query, fragment. -/
structure ParseResult where
  scheme : String
  netloc : String
  path : String
  params : String
  query : String
  fragment : String
deriving DecidableEq, Repr

/-- `urlsplit` removes every tab, carriage return and newline
(`_UNSAFE_URL_BYTES_TO_REMOVE`). -/
def removeUnsafeBytes (l : List Char) : List Char :=
  l.filter (fun c => c ≠ '\t' ∧ c ≠ '\r' ∧ c ≠ '\n')

/-- `scheme_chars` of `urllib.parse`: letters, digits, and `+-.`. -/
def isSchemeChar (c : Char) : Bool :=
  c.isAlphanum ∨ c = '+' ∨ c = '-' ∨ c = '.'

/-- The scheme test of `urlsplit`: a `:` at a positive index, the first
character an ASCII letter and the rest of the candidate made of
`scheme_chars`, splits off a lowercased scheme; otherwise the default
scheme is kept and the url is unchanged. -/
def splitScheme (defaultScheme url : List Char) : List Char × List Char :=
  match splitFirstChar ':' url with
  | some (before, after) =>
    (match before with
     | [] => (defaultScheme, url)
     | b :: rest =>
       if b.isAlpha ∧ rest.all isSchemeChar then (before.map Char.toLower, after)
       else (defaultScheme, url))
  | none => (defaultScheme, url)

/-- `_splitnetloc`: the netloc extends to the first `/`, `?` or `#`. -/
def splitNetlocFrom (l : List Char) : List Char × List Char :=
  (l.takeWhile (fun c => c ≠ '/' ∧ c ≠ '?' ∧ c ≠ '#'),
   l.dropWhile (fun c => c ≠ '/' ∧ c ≠ '?' ∧ c ≠ '#'))

/-- `urlsplit(url, scheme)` with `allow_fragments=True` (every call site of the
pipeline). The params field of the result is empty. -/
def urlsplitL (scheme0 url0 : List Char) : ParseResult :=
  let url := removeUnsafeBytes url0
  let dflt := removeUnsafeBytes scheme0
  let p := splitScheme dflt url
  let scheme := p.1
  let url := p.2
  let q :=
    if url.take 2 = ['/', '/'] then splitNetlocFrom (url.drop 2)
    else ([], url)
  let netloc := q.1
  let url := q.2
  let r :=
    match splitFirstChar '#' url with
    | some (a, b) => (a, b)
    | none => (url, [])
  let url := r.1
  let fragment := r.2
  let s :=
    match splitFirstChar '?' url with
    | some (a, b) => (a, b)
    | none => (url, [])
  ⟨⟨scheme⟩, ⟨netloc⟩, ⟨s.1⟩, "", ⟨s.2⟩, ⟨fragment⟩⟩

/-- `_splitparams`: split the params off the last path segment. -/
def splitParams (l : List Char) : List Char × List Char :=
  match splitLastChar '/' l with
  | some (a, b) =>
    (match splitFirstChar ';' b with
     | some (b1, b2) => (a ++ '/' :: b1, b2)
     | none => (l, []))
  | none =>
    match splitFirstChar ';' l with
    | some (u1, u2) => (u1, u2)
    | none => (l, [])

/-- `urlparse(url, scheme)`: `urlsplit` plus the params split for schemes in
`uses_params`. -/
def urlparseL (scheme0 url : List Char) : ParseResult :=
  let r := urlsplitL scheme0 url
  if usesParams.contains r.scheme ∧ r.path.data.contains ';' then
    let p := splitParams r.path.data
    { r with path := ⟨p.1⟩, params := ⟨p.2⟩ }
  else r

/-- `urlparse(url)` with the default empty scheme, as the pipeline calls it. -/
def urlparse (url : String) : ParseResult := urlparseL [] url.data

/-- `urlunsplit((scheme, netloc, url, query, fragment))`. -/
def urlunsplitL (scheme netloc path query fragment : List Char) : List Char :=
  let url := path
  let url :=
    if netloc ≠ [] ∨ (url ≠ [] ∧ url.take 2 = ['/', '/']) then
      let url := if url ≠ [] ∧ url.take 1 ≠ ['/'] then '/' :: url else url
      '/' :: '/' :: (netloc ++ url)
    else url
  let url := if scheme ≠ [] then scheme ++ ':' :: url else url
  let url := if query ≠ [] then url ++ '?' :: query else url
  if fragment ≠ [] then url ++ '#' :: fragment else url

/-- `urlunparse((scheme, netloc, url, params, query, fragment))`. -/
def urlunparseL (scheme netloc path params query fragment : List Char) : List Char :=
  let url := if params ≠ [] then path ++ ';' :: params else path
  urlunsplitL scheme netloc url query fragment

/-- The segment loop of `urljoin`: `..` pops the accumulator (silently on an
empty one), `.` is dropped, anything else is appended. -/
def resolveSegments (acc : List (List Char)) : List (List Char) → List (List Char)
  | [] => acc
  | seg :: rest =>
    if seg = ['.', '.'] then resolveSegments acc.dropLast rest
    else if seg = ['.'] then resolveSegments acc rest
    else resolveSegments (acc ++ [seg]) rest

/-- `segments[1:-1] = filter(None, segments[1:-1])`: drop the empty segments
strictly between the first and the last one. -/
def filterMiddleAux : List (List Char) → List (List Char)
  | [] => []
  | [a] => [a]
  | a :: rest =>
    if a = [] then filterMiddleAux rest else a :: filterMiddleAux rest

/-- See `filterMiddleAux`; the first segment is always kept. -/
def filterMiddle : List (List Char) → List (List Char)
  | [] => []
  | a :: rest => a :: filterMiddleAux rest

/-- `urljoin(base, url)` from `urllib.parse`, with `allow_fragments=True`. -/
def urljoin (base url : String) : String :=
  if base = "" then url
  else if url = "" then base
  else
    let b := urlparseL [] base.data
    let u := urlparseL b.scheme.data url.data
    if u.scheme ≠ b.scheme ∨ ¬ usesRelative.contains u.scheme then url
    else
      let useNetloc := usesNetloc.contains u.scheme
      if useNetloc ∧ u.netloc ≠ "" then
        ⟨urlunparseL u.scheme.data u.netloc.data u.path.data u.params.data
          u.query.data u.fragment.data⟩
      else
        let netloc := if useNetloc then b.netloc else u.netloc
        if u.path = "" ∧ u.params = "" then
          let query := if u.query = "" then b.query else u.query
          ⟨urlunparseL u.scheme.data netloc.data b.path.data b.params.data
            query.data u.fragment.data⟩
        else
          let baseParts := splitAllChar '/' b.path.data
          let baseParts :=
            if baseParts.getLast? ≠ some [] then baseParts.dropLast else baseParts
          let segments :=
            if u.path.data.take 1 = ['/'] then splitAllChar '/' u.path.data
            else filterMiddle (baseParts ++ splitAllChar '/' u.path.data)
          let resolved := resolveSegments [] segments
          let resolved :=
            if segments.getLast? = some ['.'] ∨ segments.getLast? = some ['.', '.'] then
              resolved ++ [[]]
            else resolved
          let joined := List.intercalate ['/'] resolved
          let path := if joined = [] then ['/'] else joined
          ⟨urlunparseL u.scheme.data netloc.data path u.params.data
            u.query.data u.fragment.data⟩

/-! ## Text/URL normalizer and pattern filter (generate_feeds.py) -/

/-- Python `s.startswith(p)`. -/
def pyStartsWith (s p : String) : Bool := p.data.isPrefixOf s.data

/-- `normalize_link(href, base_url)` (lines 159-171). -/
def normalize_link (href base_url : String) : Option String :=
  if href = "" then none
  else
    let href := pyStrip href
    if pyStartsWith href "#" ∨ pyStartsWith href "mailto:" ∨ pyStartsWith href "javascript:" then
      none
    else
      let full_url := urljoin base_url href
      let parsed := urlparse full_url
      if parsed.scheme ≠ "http" ∧ parsed.scheme ≠ "https" then none
      else if parsed.netloc = "" then none
      else some full_url

/-- `same_url(a, b)` (lines 174-180): compare scheme, netloc and the path with
a trailing-slash stripped (an empty path counts as "/"); query and fragment
are ignored. -/
def same_url (a b : String) : Bool :=
  let norm := fun (u : String) =>
    let parsed := urlparse u
    let path := let p := pyRStripSlashL parsed.path.data
                if p = [] then ['/'] else p
    parsed.scheme ++ "://" ++ parsed.netloc ++ (⟨path⟩ : String)
  norm a == norm b

/-- `matches_patterns(url, include_patterns, exclude_patterns)` (lines
183-188).  `search p u` models `re.search(p, u) is not None`. -/
def matches_patterns (search : String → String → Bool) (url : String)
    (include_patterns exclude_patterns : List String) : Bool :=
  if include_patterns ≠ [] ∧ ¬ include_patterns.any (fun p => search p url) then false
  else if exclude_patterns ≠ [] ∧ exclude_patterns.any (fun p => search p url) then false
  else true

/-- `slug_to_title(link)` (lines 191-194). -/
def slug_to_title (link : String) : String :=
  let slug := (splitAllChar '/' (pyRStripSlashL (urlparse link).path.data)).getLastD []
  let slug := collapseRuns (fun c => c = '-' ∨ c = '_') ' ' false slug
  let t := pyTitleL false (pyStripL slug)
  if t = [] then link else ⟨t⟩

/-- `clean_text(value)` (lines 197-201). -/
def clean_text : Option String → Option String
  | none => none
  | some value =>
    let cleaned := pyStripL (collapseRuns pyIsSpace ' ' false value.data)
    if cleaned = [] then none else some ⟨cleaned⟩

/-- The per-run source configuration (the `FeedSource` dataclass). -/
structure FeedSource where
  source_id : String
  url : String
  site_url : String
  feed_title : String
  feed_description : String
  output_rss : String
  max_items : Int
  include_url_patterns : List String
  exclude_url_patterns : List String
  link_scope_selectors : List String
  use_json_ld : Bool
  user_agent : String
  timeout_seconds : Int
deriving DecidableEq, Repr

/-- `should_keep_link(link, source)` (lines 204-207). -/
def should_keep_link (search : String → String → Bool) (link : String)
    (source : FeedSource) : Bool :=
  if same_url link source.url then false
  else matches_patterns search link source.include_url_patterns source.exclude_url_patterns

/-! ## Dates: the model of `datetime` and `parse_date` -/

/-- A Python `datetime`: the wall-clock value in seconds together with the
UTC offset of its timezone in seconds (`none` for a naive value). -/
structure PyDateTime where
  wall : Int
  tzOffset : Option Int
deriving DecidableEq, Repr

/-- `value.astimezone(timezone.utc)` for an aware value: same instant,
offset zero.  The model fixes the process-local timezone to UTC, so the
conversion is also defined (as the identity instant) on naive values. -/
def astimezoneUtc (v : PyDateTime) : PyDateTime :=
  ⟨v.wall - v.tzOffset.getD 0, some 0⟩

/-- `datetime.timestamp()` with the process-local timezone fixed to UTC. -/
def PyDateTime.timestamp (d : PyDateTime) : Int := d.wall - d.tzOffset.getD 0

/-- `normalize_datetime(value)` (lines 134-139). -/
def normalize_datetime : Option PyDateTime → Option PyDateTime
  | none => none
  | some v =>
    let v := if v.tzOffset = none then { v with tzOffset := some 0 } else v
    some (astimezoneUtc v)

/-- The dynamically-typed argument of `parse_date`: `None`, a string, a
`datetime`, or any other value reduced to its truthiness. -/
inductive PyVal where
  | pynone
  | pystr (s : String)
  | pydatetime (d : PyDateTime)
  | pyother (truthy : Bool)
deriving DecidableEq, Repr

/-- Python truthiness of a `PyVal` (a `datetime` is always truthy). -/
def pyTruthy : PyVal → Bool
  | .pynone => false
  | .pystr s => s ≠ ""
  | .pydatetime _ => true
  | .pyother b => b

/-- `parse_date(value)` (lines 142-156).  `du` is the external
`dateutil.parser.parse` collaborator; `du s = none` stands for the call
raising, which the function's `except` clause turns into `None`. -/
def parse_date (du : String → Option PyDateTime) (value : PyVal) :
    Option PyDateTime :=
  if ¬ pyTruthy value then none
  else
    match value with
    | .pydatetime d => normalize_datetime (some d)
    | .pystr s =>
      let s := pyStrip s
      if s = "" then none
      else
        match du s with
        | some parsed => normalize_datetime (some parsed)
        | none => none
    | _ => none

/-! ## Feed items and the merge/rank engine -/

/-- The `FeedItem` dataclass. -/
structure FeedItem where
  title : String
  link : String
  summary : Option String
  published : Option PyDateTime
deriving DecidableEq, Repr

/-- Python truthiness of the `summary` field (`None` and `""` are falsy). -/
def pyTruthyStrOpt : Option String → Bool
  | none => false
  | some s => s ≠ ""

/-- One merge step of `dedupe_and_rank` (lines 351-356): the in-place update
applied to the established record when a later candidate carries the same
link.  The three field updates run in order; none of them touches `link`. -/
def mergeInto (existing item : FeedItem) : FeedItem :=
  let e1 :=
    if ¬ pyTruthyStrOpt existing.summary ∧ pyTruthyStrOpt item.summary then
      { existing with summary := item.summary }
    else existing
  let e2 :=
    if e1.published.isNone ∧ item.published.isSome then
      { e1 with published := item.published }
    else e1
  if e2.title = slug_to_title e2.link ∧ item.title ≠ "" then
    { e2 with title := item.title }
  else e2

/-- The merge loop of `dedupe_and_rank` (lines 342-356): an insertion-ordered
association list plays the Python dict `merged` (`list(merged.values())` is
the list itself), and `i` is the `enumerate` counter. -/
def mergeList (acc : List (FeedItem × Nat)) (i : Nat) :
    List FeedItem → List (FeedItem × Nat)
  | [] => acc
  | item :: rest =>
    if acc.any (fun p => p.1.link = item.link) then
      mergeList
        (acc.map (fun p =>
          if p.1.link = item.link then (mergeInto p.1 item, p.2) else p))
        (i + 1) rest
    else
      mergeList (acc ++ [(item, i)]) (i + 1) rest

/-- The date components of the sort key of `dedupe_and_rank` (lines 359-365):
the has-no-date flag, then the negated timestamp (0 for a missing date). -/
def dateKey (it : FeedItem) : Nat × Int :=
  (if it.published.isSome then 0 else 1,
   -(match it.published with | some d => d.timestamp | none => 0))

/-- The full sort key: date components, then the first-seen index. -/
def rankKey (pair : FeedItem × Nat) : Nat × Int × Nat :=
  ((dateKey pair.1).1, (dateKey pair.1).2, pair.2)

/-- Lexicographic order on sort keys, as Python compares key tuples. -/
def keyLE (a b : Nat × Int × Nat) : Bool :=
  a.1 < b.1 ∨ (a.1 = b.1 ∧ (a.2.1 < b.2.1 ∨ (a.2.1 = b.2.1 ∧ a.2.2 ≤ b.2.2)))

/-- The ordering relation `result.sort(key=...)` sorts by.  The sort keys of
distinct merged entries always differ (their first-seen indices do), so every
correct sort produces the list Python's stable sort produces. -/
def rankLE (a b : FeedItem × Nat) : Prop := keyLE (rankKey a) (rankKey b) = true

instance : DecidableRel rankLE := fun _ _ =>
  inferInstanceAs (Decidable (_ = true))

/-- The Python slice `l[:k]` for an `int` bound `k`: a nonnegative bound keeps
the first `k` elements, a negative one drops the last `-k`. -/
def pySliceTo (k : Int) (l : List α) : List α :=
  if 0 ≤ k then l.take k.toNat else l.take ((l.length : Int) + k).toNat

/-- `dedupe_and_rank(items, max_items)` (lines 341-366). -/
def dedupe_and_rank (items : List FeedItem) (max_items : Int) : List FeedItem :=
  let result := mergeList [] 0 items
  let sorted := result.insertionSort rankLE
  (pySliceTo max_items sorted).map (fun p => p.1)

/-- The full sorted merged sequence `dedupe_and_rank` would produce with no
truncation. -/
def rankedAll (items : List FeedItem) : List FeedItem :=
  ((mergeList [] 0 items).insertionSort rankLE).map (fun p => p.1)

/-- The index at which a link first occurs in the candidate list. -/
def firstLinkIdx (items : List FeedItem) (link : String) : Nat :=
  items.findIdx (fun x => x.link = link)

/-! ## Structured-data extractor (`extract_items_from_json_ld`) -/

mutual
/-- A parsed JSON value as `json.loads` returns it: object keys are unique
and in document order. -/
inductive JsonVal where
  | null
  | bool (b : Bool)
  | num (n : Int)
  | str (s : String)
  | arr (elems : JsonElems)
  | obj (fields : JsonFields)
inductive JsonElems where
  | nil
  | cons (hd : JsonVal) (tl : JsonElems)
inductive JsonFields where
  | nil
  | cons (key : String) (val : JsonVal) (tl : JsonFields)
end

/-- Python `node.get(key)` on a parsed JSON object. -/
def jGet : JsonFields → String → Option JsonVal
  | .nil, _ => none
  | .cons k v tl, key => if k = key then some v else jGet tl key

/-- `node.get(key)` with the missing case as JSON null (Python `None`). -/
def jGetD (fields : JsonFields) (key : String) : JsonVal :=
  (jGet fields key).getD .null

/-- Python truthiness of a parsed JSON value. -/
def jsonTruthy : JsonVal → Bool
  | .null => false
  | .bool b => b
  | .num n => n ≠ 0
  | .str s => s ≠ ""
  | .arr .nil => false
  | .arr (.cons _ _) => true
  | .obj .nil => false
  | .obj (.cons _ _ _) => true

/-- Python `a or b` on JSON values. -/
def pyOrJ (a b : JsonVal) : JsonVal := if jsonTruthy a then a else b

/-- Python `str(entry)` for a parsed JSON value, as `node_types` applies it to
the members of an `@type` list.  Only equality with an article type name
matters; the renderings of non-string values never equal one. -/
def pyStrJ : JsonVal → String
  | .str s => s
  | .null => "None"
  | .bool true => "True"
  | .bool false => "False"
  | .num n => toString n
  | .arr _ => "[list]"
  | .obj _ => "\x7bdict\x7d"

/-- The fixed article-type vocabulary. -/
def ARTICLE_TYPES : List String :=
  ["Article", "BlogPosting", "NewsArticle", "TechArticle"]

/-- The elements of a JSON array as a Lean list. -/
def jsonElemsToList : JsonElems → List JsonVal
  | .nil => []
  | .cons h t => h :: jsonElemsToList t

/-- `node_types(node)` (lines 213-219): the `@type` field as a set of
strings. -/
def node_types (node : JsonFields) : List String :=
  match jGet node "@type" with
  | some (.str s) => [s]
  | some (.arr l) => (jsonElemsToList l).map pyStrJ
  | _ => []

/-- `node_url(node)` (lines 221-236): the `url` field (a string, or an
object's `@id`), else `mainEntityOfPage` likewise. -/
def node_url (node : JsonFields) : Option String :=
  let fromUrl : Option String :=
    match jGet node "url" with
    | some (.str s) => some s
    | some (.obj o) =>
      (match jGet o "@id" with
       | some (.str s) => some s
       | _ => none)
    | _ => none
  match fromUrl with
  | some s => some s
  | none =>
    match jGet node "mainEntityOfPage" with
    | some (.str s) => some s
    | some (.obj o) =>
      (match jGet o "@id" with
       | some (.str s) => some s
       | _ => none)
    | _ => none

/-- The conversion of a JSON field value into `parse_date`'s argument. -/
def jsonToPyVal : JsonVal → PyVal
  | .str s => .pystr s
  | .null => .pynone
  | v => .pyother (jsonTruthy v)

/-- `clean_text` applied to a JSON field value: `None` passes through, a
string is cleaned, and any other value makes `re.sub` raise `TypeError`
(the error case). -/
def cleanTextJ : JsonVal → Except Unit (Option String)
  | .null => .ok none
  | .str s => .ok (clean_text (some s))
  | _ => .error ()

mutual
/-- The recursive `walk` of `extract_items_from_json_ld` (lines 238-259): at
an object node whose `@type` set meets the vocabulary, attempt extraction,
then recurse into every value; arrays recurse into every element. -/
def walk (source : FeedSource) (search : String → String → Bool)
    (du : String → Option PyDateTime) : JsonVal → Except Unit (List FeedItem)
  | .arr l => walkElems source search du l
  | .obj node => do
    let selfItems ←
      if (node_types node).any (fun t => ARTICLE_TYPES.contains t) then
        match normalize_link ((node_url node).getD "") source.url with
        | some link =>
          if should_keep_link search link source then do
            let t ← cleanTextJ (pyOrJ (jGetD node "headline") (jGetD node "name"))
            let title := match t with | some s => s | none => slug_to_title link
            let summary ← cleanTextJ (jGetD node "description")
            let published := parse_date du (jsonToPyVal
              (pyOrJ (jGetD node "datePublished")
                (pyOrJ (jGetD node "dateCreated") (jGetD node "dateModified"))))
            pure [{ title := title, link := link, summary := summary,
                    published := published }]
          else pure []
        | none => pure []
      else pure []
    let rest ← walkFields source search du node
    pure (selfItems ++ rest)
  | _ => .ok []

/-- `walk` over the elements of an array, in order. -/
def walkElems (source : FeedSource) (search : String → String → Bool)
    (du : String → Option PyDateTime) : JsonElems → Except Unit (List FeedItem)
  | .nil => .ok []
  | .cons h t => do
    let a ← walk source search du h
    let b ← walkElems source search du t
    pure (a ++ b)

/-- `walk` over the values of an object, in key order. -/
def walkFields (source : FeedSource) (search : String → String → Bool)
    (du : String → Option PyDateTime) : JsonFields → Except Unit (List FeedItem)
  | .nil => .ok []
  | .cons _ v t => do
    let a ← walk source search du v
    let b ← walkFields source search du t
    pure (a ++ b)
end

/-- `extract_items_from_json_ld` (lines 210-272) beyond the page boundary:
the input is the page's script blocks, each either a parsed JSON value or
`none` for text that is empty or fails to parse (`json.JSONDecodeError`),
which the loop silently skips.  An error raised by `walk` propagates. -/
def extract_items_from_json_ld (source : FeedSource)
    (search : String → String → Bool) (du : String → Option PyDateTime) :
    List (Option JsonVal) → Except Unit (List FeedItem)
  | [] => .ok []
  | none :: rest => extract_items_from_json_ld source search du rest
  | some v :: rest => do
    let a ← walk source search du v
    let b ← extract_items_from_json_ld source search du rest
    pure (a ++ b)

/-! ## Anchor extractor: the nearby-date search -/

mutual
/-- An HTML element: tag name, attributes, children (elements and text). -/
inductive HEl where
  | mk (name : String) (attrs : List (String × String)) (children : HKids)
inductive HKids where
  | nil
  | consEl (el : HEl) (rest : HKids)
  | consText (s : String) (rest : HKids)
end

/-- The tag name of an element. -/
def HEl.name : HEl → String
  | .mk n _ _ => n

/-- The attributes of an element. -/
def HEl.attrs : HEl → List (String × String)
  | .mk _ a _ => a

mutual
/-- BeautifulSoup `node.find("time")`: the first descendant element with tag
name `time`, in document order (the node itself is not a candidate). -/
def findTimeEl : HEl → Option HEl
  | .mk _ _ kids => findTimeKids kids

/-- `findTimeEl` over a child list. -/
def findTimeKids : HKids → Option HEl
  | .nil => none
  | .consText _ r => findTimeKids r
  | .consEl e r =>
    if e.name = "time" then some e
    else
      match findTimeEl e with
      | some t => some t
      | none => findTimeKids r
end

mutual
/-- The stripped, non-empty string descendants of an element, in document
order (BeautifulSoup `_all_strings(strip=True)`). -/
def stringsEl : HEl → List String
  | .mk _ _ kids => stringsKids kids

/-- `stringsEl` over a child list. -/
def stringsKids : HKids → List String
  | .nil => []
  | .consText s r =>
    (let t := pyStrip s
     if t = "" then [] else [t]) ++ stringsKids r
  | .consEl e r => stringsEl e ++ stringsKids r
end

/-- `get_text(" ", strip=True)`. -/
def pyGetText (e : HEl) : String := String.intercalate " " (stringsEl e)

/-- `time_node.get("datetime") or time_node.get_text(" ", strip=True)`. -/
def timeCandidate (t : HEl) : String :=
  match List.lookup "datetime" t.attrs with
  | some v => if v ≠ "" then v else pyGetText t
  | none => pyGetText t

/-- The ancestor walk of `parse_nearby_date` (lines 276-282): parents are
collected while one exists and fewer than 3 steps were taken. -/
def nearbyScope (ancestors : List HEl) (steps : Nat) : List HEl :=
  match ancestors with
  | [] => []
  | p :: ps => if steps < 3 then p :: nearbyScope ps (steps + 1) else []

/-- The search loop of `parse_nearby_date` (lines 284-291): per scope node,
find its first time element (a found node is tested for presence, modelling
the truthiness test on a tag), parse its candidate text, and return the
first successful parse. -/
def nearbyLoop (du : String → Option PyDateTime) : List HEl → Option PyDateTime
  | [] => none
  | node :: rest =>
    match findTimeEl node with
    | some time_node =>
      (match parse_date du (.pystr (timeCandidate time_node)) with
       | some parsed => some parsed
       | none => nearbyLoop du rest)
    | none => nearbyLoop du rest

/-- `parse_nearby_date(anchor)` (lines 275-291), for an anchor given together
with its ancestor chain (nearest parent first). -/
def parse_nearby_date (du : String → Option PyDateTime) (anchor : HEl)
    (ancestors : List HEl) : Option PyDateTime :=
  nearbyLoop du (anchor :: nearbyScope ancestors 0)

/-- The spec's reading of the same search (claim C8): over the anchor and
then up to 3 ancestor levels, the first level whose first contained time
element parses (machine-readable datetime attribute when non-empty, else
visible text) supplies the published value; otherwise none. -/
def nearby_date_spec (du : String → Option PyDateTime) (anchor : HEl)
    (ancestors : List HEl) : Option PyDateTime :=
  (anchor :: ancestors.take 3).findSome? (fun node =>
    (findTimeEl node).bind (fun t => parse_date du (.pystr (timeCandidate t))))

instance : Inhabited FeedItem := ⟨⟨"", "", none, none⟩⟩

instance : IsTotal (FeedItem × Nat) rankLE :=
  ⟨fun a b => by
    unfold rankLE keyLE
    simp only [decide_eq_true_eq]
    omega⟩

instance : IsTrans (FeedItem × Nat) rankLE :=
  ⟨fun a b c hab hbc => by
    unfold rankLE keyLE at *
    simp only [decide_eq_true_eq] at *
    omega⟩

/-- The candidates of a list that carry a given link, in order: the items the
merge loop folds into the record established for that link. -/
def contributors (items : List FeedItem) (k : String) : List FeedItem :=
  items.filter (fun x => x.link = k)

/-- A demonstration source for the structured-data extractor: the listing
page is `https://e.com/blog`, with no filter patterns configured. -/
def demoSource : FeedSource :=
  ⟨"demo", "https://e.com/blog", "https://e.com", "t", "d", "feeds/demo.rss.xml",
   30, [], [], [], true, "ua", 20⟩

/-- A structured-data block holding an article node whose `headline` is the
JSON number 5 and whose value nest contains a further, well-formed article
node. -/
def badBlock : JsonVal :=
  .obj (.cons "@type" (.str "Article")
    (.cons "url" (.str "/bad")
      (.cons "headline" (.num 5)
        (.cons "nested"
          (.obj (.cons "@type" (.str "Article")
            (.cons "url" (.str "/good")
              (.cons "headline" (.str "Good headline") .nil))))
          .nil))))

/-- A well-formed article block. -/
def goodBlock : JsonVal :=
  .obj (.cons "@type" (.str "Article")
    (.cons "url" (.str "/fine")
      (.cons "headline" (.str "Fine headline") .nil)))

/-! ## Lemmas about the merge step -/

theorem mergeInto_link (e i : FeedItem) : (mergeInto e i).link = e.link := by
  simp only [mergeInto]
  split_ifs <;> rfl

theorem mergeInto_summary (e i : FeedItem) :
    (mergeInto e i).summary =
      if ¬ pyTruthyStrOpt e.summary ∧ pyTruthyStrOpt i.summary then i.summary
      else e.summary := by
  simp only [mergeInto]
  split_ifs <;> simp_all

theorem mergeInto_published (e i : FeedItem) :
    (mergeInto e i).published =
      if e.published.isNone ∧ i.published.isSome then i.published
      else e.published := by
  simp only [mergeInto]
  split_ifs <;> simp_all

theorem mergeInto_title (e i : FeedItem) :
    (mergeInto e i).title =
      if e.title = slug_to_title e.link ∧ i.title ≠ "" then i.title
      else e.title := by
  simp only [mergeInto]
  split_ifs <;> simp_all

/-- Claim C2: in the merge phase of `dedupe_and_rank`, the update applied to
an established record by a later same-link candidate fills `summary` only
when the record's is empty and the candidate's is not, likewise `published`;
replaces `title` only when the record's title equals the slug-derived title
recomputed from its link and the candidate's title is non-empty; and never
removes or replaces a non-empty, non-placeholder field value (the link is
untouched). -/
theorem claim_C2 (existing item : FeedItem) :
    ((mergeInto existing item).link = existing.link) ∧
    (pyTruthyStrOpt existing.summary = true →
      (mergeInto existing item).summary = existing.summary) ∧
    (pyTruthyStrOpt existing.summary = false → pyTruthyStrOpt item.summary = true →
      (mergeInto existing item).summary = item.summary) ∧
    (pyTruthyStrOpt existing.summary = false → pyTruthyStrOpt item.summary = false →
      (mergeInto existing item).summary = existing.summary) ∧
    (existing.published.isSome = true →
      (mergeInto existing item).published = existing.published) ∧
    (existing.published = none → item.published.isSome = true →
      (mergeInto existing item).published = item.published) ∧
    (existing.published = none → item.published = none →
      (mergeInto existing item).published = none) ∧
    (existing.title ≠ slug_to_title existing.link →
      (mergeInto existing item).title = existing.title) ∧
    (existing.title = slug_to_title existing.link → item.title ≠ "" →
      (mergeInto existing item).title = item.title) ∧
    (existing.title = slug_to_title existing.link → item.title = "" →
      (mergeInto existing item).title = existing.title) := by
  refine ⟨mergeInto_link existing item, ?_, ?_, ?_, ?_, ?_, ?_, ?_, ?_, ?_⟩ <;>
    intros <;>
    rcases hE : existing.published with _ | d <;>
    simp_all [mergeInto_summary, mergeInto_published, mergeInto_title]

/-- Witness for claim C2 at a concrete merge: a placeholder title is
upgraded by the later candidate's title. -/
theorem claim_C2_witness :
    (mergeInto ⟨"X", "http://a/x", none, none⟩
      ⟨"Better", "http://a/x", some "s", some ⟨5, some 0⟩⟩).title = "Better" :=
  (claim_C2 ⟨"X", "http://a/x", none, none⟩
      ⟨"Better", "http://a/x", some "s", some ⟨5, some 0⟩⟩).2.2.2.2.2.2.2.2.1
    (by decide) (by decide)

/-- Claim C3 fails as stated for a negative configured maximum: with
`max_items = -1` (Python slicing drops the last entry) the output of a
one-candidate list has 0 entries, which is not at most `-1`. -/
theorem claim_C3_counterexample :
    ¬ (((dedupe_and_rank [⟨"T", "http://a/x", none, none⟩] (-1)).length : Int)
        ≤ -1) := by decide

/-- Claim C3 (amended to the nonnegative maxima the slice bound behaves as a
count for): for `0 ≤ max_items`, `dedupe_and_rank` returns at most
`max_items` entries, and exactly the length-`max_items` prefix of the full
sorted merged sequence produced without truncation. -/
theorem claim_C3 (items : List FeedItem) (max_items : Int)
    (h : 0 ≤ max_items) :
    ((dedupe_and_rank items max_items).length : Int) ≤ max_items ∧
    dedupe_and_rank items max_items = (rankedAll items).take max_items.toNat := by
  simp only [dedupe_and_rank, rankedAll, pySliceTo]
  rw [if_pos h]
  constructor
  · simp only [List.length_map, List.length_take]
    have := Int.toNat_of_nonneg h
    omega
  · rw [List.map_take]

/-- Witness for claim C3 at `max_items = 2`. -/
theorem claim_C3_witness :
    ((dedupe_and_rank [⟨"T", "http://a/x", none, none⟩] 2).length : Int) ≤ 2 ∧
    dedupe_and_rank [⟨"T", "http://a/x", none, none⟩] 2 =
      (rankedAll [⟨"T", "http://a/x", none, none⟩]).take (2 : Int).toNat :=
  claim_C3 [⟨"T", "http://a/x", none, none⟩] 2 (by decide)

/-- Claim C4: `should_keep_link` returns false for the listing page itself
(`same_url`) regardless of the pattern lists; otherwise it keeps the link iff
the include list is empty or some include pattern matches, and no exclude
pattern matches. -/
theorem claim_C4 (search : String → String → Bool) (link : String)
    (source : FeedSource) :
    should_keep_link search link source = true ↔
      (¬ same_url link source.url = true ∧
       (source.include_url_patterns = [] ∨
         ∃ p ∈ source.include_url_patterns, search p link = true) ∧
       (∀ p ∈ source.exclude_url_patterns, ¬ search p link = true)) := by
  unfold should_keep_link matches_patterns
  split_ifs with h1 h2 h3
  · simp [h1]
  · constructor
    · intro hf; exact absurd hf (by simp)
    · rintro ⟨-, hinc, -⟩
      rcases h2 with ⟨hne, hnoany⟩
      rcases hinc with he | ⟨p, hp, hs⟩
      · exact absurd he hne
      · exact absurd (List.any_eq_true.mpr ⟨p, hp, hs⟩) hnoany
  · constructor
    · intro hf; exact absurd hf (by simp)
    · rintro ⟨-, -, hexc⟩
      rcases h3 with ⟨-, hany⟩
      rcases List.any_eq_true.mp hany with ⟨p, hp, hs⟩
      exact hexc p hp hs
  · constructor
    · intro _
      refine ⟨h1, ?_, ?_⟩
      · by_cases hinc : source.include_url_patterns = []
        · exact Or.inl hinc
        · right
          rcases not_and_or.mp h2 with h | h
          · exact absurd hinc (by simpa using h)
          · simpa [List.any_eq_true] using h
      · intro p hp hs
        refine h3 ⟨?_, List.any_eq_true.mpr ⟨p, hp, hs⟩⟩
        intro hne
        rw [hne] at hp
        exact absurd hp (List.not_mem_nil p)
    · intro _; rfl

/-- Witness for claim C4: with an include pattern that matches and an exclude
pattern that does not, a non-listing-page link is kept. -/
theorem claim_C4_witness :
    should_keep_link (fun p l => p.data.isPrefixOf l.data) "https://e.com/blog/a"
      ⟨"s", "https://e.com/blog", "https://e.com", "t", "d", "o", 30,
        ["https://e"], ["skip"], [], true, "ua", 20⟩ = true :=
  (claim_C4 (fun p l => p.data.isPrefixOf l.data) "https://e.com/blog/a"
      ⟨"s", "https://e.com/blog", "https://e.com", "t", "d", "o", 30,
        ["https://e"], ["skip"], [], true, "ua", 20⟩).mpr
    ⟨by decide, Or.inr ⟨"https://e", by decide, by decide⟩, by decide⟩

/-- Claim C5: `normalize_link` returns `None` exactly when the raw href is
empty, the stripped href starts with `#`, `mailto:` or `javascript:`, or the
resolution of the (stripped) href against the base URL has a scheme other
than http/https or an empty host; in every other case it returns that
resolved absolute URL. -/
theorem claim_C5 (href base_url : String) :
    (normalize_link href base_url = none ↔
      (href = "" ∨
       pyStartsWith (pyStrip href) "#" = true ∨
       pyStartsWith (pyStrip href) "mailto:" = true ∨
       pyStartsWith (pyStrip href) "javascript:" = true ∨
       ((urlparse (urljoin base_url (pyStrip href))).scheme ≠ "http" ∧
        (urlparse (urljoin base_url (pyStrip href))).scheme ≠ "https") ∨
       (urlparse (urljoin base_url (pyStrip href))).netloc = "")) ∧
    (∀ u, normalize_link href base_url = some u →
      u = urljoin base_url (pyStrip href)) := by
  simp only [normalize_link]
  split_ifs with h1 h2 h3 h4 <;> simp_all
  all_goals tauto

/-- Witness for claim C5: on a kept relative href the returned URL is the
resolution of the stripped href against the base. -/
theorem claim_C5_witness :
    "https://e.com/a" = urljoin "https://e.com/blog" (pyStrip "/a") :=
  (claim_C5 "/a" "https://e.com/blog").2 "https://e.com/a" (by decide)

/-- Claim C10: an href that is non-empty but all whitespace is not rejected:
it strips to the empty string, whose resolution against a base URL with an
http/https scheme and a non-empty host is the base URL itself. -/
theorem claim_C10 (href base_url : String) (h1 : href ≠ "")
    (h2 : ∀ c ∈ href.data, pyIsSpace c = true)
    (h3 : (urlparse base_url).scheme = "http" ∨
      (urlparse base_url).scheme = "https")
    (h4 : (urlparse base_url).netloc ≠ "") :
    normalize_link href base_url = some base_url := by
  have hbase : base_url ≠ "" := by
    intro hb
    rw [hb] at h3
    exact absurd h3 (by decide)
  have hstrip : pyStrip href = "" := by
    unfold pyStrip pyStripL
    rw [List.dropWhile_eq_nil_iff.mpr h2]
    rfl
  have hjoin : urljoin base_url "" = base_url := by
    unfold urljoin
    rw [if_neg hbase, if_pos rfl]
  simp only [normalize_link, hstrip]
  rw [if_neg h1, hjoin]
  rw [if_neg (by decide :
    ¬ (pyStartsWith "" "#" = true ∨ pyStartsWith "" "mailto:" = true ∨
       pyStartsWith "" "javascript:" = true))]
  rw [if_neg (fun hc => by rcases h3 with h | h; exacts [hc.1 h, hc.2 h]),
    if_neg h4]

/-- Witness for claim C10: a single-space href resolves to the base URL. -/
theorem claim_C10_witness :
    normalize_link " " "https://example.com/blog" =
      some "https://example.com/blog" :=
  claim_C10 " " "https://example.com/blog" (by decide) (by decide) (by decide)
    (by decide)

/-- `normalize_datetime` always returns an aware value with offset zero. -/
theorem normalize_datetime_tz (x : PyDateTime) :
    ∃ w, normalize_datetime (some x) = some ⟨w, some 0⟩ := by
  unfold normalize_datetime astimezoneUtc
  exact ⟨_, rfl⟩

/-- Claim C7: `parse_date` never raises (it is a total function into an
option, the parser's exception entering as `du`'s `none`); falsy input,
unparseable strings and non-string non-datetime values yield `None`; every
returned value has UTC offset zero; and a parsed value carrying no timezone
is interpreted as UTC, its wall-clock reading preserved. -/
theorem claim_C7 (du : String → Option PyDateTime) :
    (∀ v, pyTruthy v = false → parse_date du v = none) ∧
    (∀ s, du (pyStrip s) = none → parse_date du (.pystr s) = none) ∧
    (∀ b, parse_date du (.pyother b) = none) ∧
    (∀ v d, parse_date du v = some d → d.tzOffset = some 0) ∧
    (∀ s d, pyStrip s ≠ "" → du (pyStrip s) = some d → d.tzOffset = none →
      parse_date du (.pystr s) = some ⟨d.wall, some 0⟩) := by
  refine ⟨?_, ?_, ?_, ?_, ?_⟩
  · intro v hv
    simp [parse_date, hv]
  · intro s hdu
    by_cases hs : s = ""
    · subst hs
      simp [parse_date, pyTruthy]
    · by_cases hss : pyStrip s = "" <;> simp [parse_date, pyTruthy, hs, hss, hdu]
  · intro b
    cases b <;> simp [parse_date, pyTruthy]
  · intro v d h
    cases v with
    | pynone => simp [parse_date, pyTruthy] at h
    | pyother b => cases b <;> simp [parse_date, pyTruthy] at h
    | pydatetime x =>
      simp [parse_date, pyTruthy] at h
      obtain ⟨w, hw⟩ := normalize_datetime_tz x
      rw [hw] at h
      injection h with h2
      rw [← h2]
    | pystr s =>
      by_cases hs : s = ""
      · subst hs
        simp [parse_date, pyTruthy] at h
      · by_cases hss : pyStrip s = ""
        · simp [parse_date, pyTruthy, hs, hss] at h
        · cases hdu : du (pyStrip s) with
          | none => simp [parse_date, pyTruthy, hs, hss, hdu] at h
          | some x =>
            simp [parse_date, pyTruthy, hs, hss, hdu] at h
            obtain ⟨w, hw⟩ := normalize_datetime_tz x
            rw [hw] at h
            injection h with h2
            rw [← h2]
  · intro s d hstr hdu htz
    have hs : s ≠ "" := by
      intro h
      rw [h] at hstr
      exact hstr (by decide)
    simp [parse_date, pyTruthy, hs, hstr, hdu, normalize_datetime,
      astimezoneUtc, htz]

/-- Witness for claim C7 at a concrete parser and input: a naive parse result
is interpreted as UTC with its wall-clock reading kept. -/
theorem claim_C7_witness :
    parse_date (fun s => if s = "2024-01-05" then some ⟨1704412800, none⟩ else none)
      (.pystr " 2024-01-05 ") = some ⟨1704412800, some 0⟩ :=
  (claim_C7 (fun s => if s = "2024-01-05" then some ⟨1704412800, none⟩ else none)).2.2.2.2
    " 2024-01-05 " ⟨1704412800, none⟩ (by decide) (by decide) (by decide)

/-- The ancestor walk collects the first three ancestors. -/
theorem nearbyScope_eq_take (l : List HEl) :
    ∀ s, nearbyScope l s = l.take (3 - s) := by
  induction l with
  | nil => intro s; simp [nearbyScope]
  | cons p ps ih =>
    intro s
    simp only [nearbyScope]
    split_ifs with h
    · have h3 : 3 - s = (3 - (s + 1)) + 1 := by omega
      rw [h3, List.take_succ_cons, ih]
    · have h3 : 3 - s = 0 := by omega
      rw [h3, List.take_zero]

/-- The search loop returns the first successful per-level parse. -/
theorem nearbyLoop_eq_findSome (du : String → Option PyDateTime)
    (scope : List HEl) :
    nearbyLoop du scope = scope.findSome? (fun node =>
      (findTimeEl node).bind (fun t =>
        parse_date du (.pystr (timeCandidate t)))) := by
  induction scope with
  | nil => rfl
  | cons node rest ih =>
    simp only [nearbyLoop, List.findSome?_cons]
    cases hft : findTimeEl node with
    | none => simpa using ih
    | some t =>
      cases hp : parse_date du (.pystr (timeCandidate t)) <;>
        simp [Option.bind, hp, ih]

/-- Claim C8: the published value `parse_nearby_date` assigns is found by
searching the anchor itself and then up to 3 ancestor levels for the first
contained time element, parsing its datetime attribute when present and
non-empty, else its visible text, stopping at the first successful parse;
`None` when no level parses. -/
theorem claim_C8 (du : String → Option PyDateTime) (anchor : HEl)
    (ancestors : List HEl) :
    parse_nearby_date du anchor ancestors =
      nearby_date_spec du anchor ancestors := by
  unfold parse_nearby_date nearby_date_spec
  rw [nearbyScope_eq_take, Nat.sub_zero, nearbyLoop_eq_findSome]

set_option maxHeartbeats 1600000 in
/-- Claim C6: a block that fails to parse is silently skipped (removing it
changes nothing, wherever it sits among the blocks) — that half holds.  The
second conjunct evaluates the extractor at the claim's failing input: a
tagged article node with a kept link whose `headline` is the JSON number 5
makes `clean_text` raise `TypeError`, so the traversal aborts, the nested
and following article nodes are never visited, and the error leaves the
extractor; the claim's promised continuation of the traversal fails there. -/
theorem claim_C6 :
    (∀ (source : FeedSource) (search : String → String → Bool)
       (du : String → Option PyDateTime) (bs1 bs2 : List (Option JsonVal)),
       extract_items_from_json_ld source search du (bs1 ++ none :: bs2) =
         extract_items_from_json_ld source search du (bs1 ++ bs2)) ∧
    extract_items_from_json_ld demoSource (fun _ _ => false) (fun _ => none)
      [some badBlock, some goodBlock] = .error () := by
  constructor
  · intro source search du bs1 bs2
    induction bs1 with
    | nil => rfl
    | cons b rest ih =>
      cases b with
      | none => simpa [extract_items_from_json_ld] using ih
      | some v => simp [extract_items_from_json_ld, ih]
  · rfl

/-- Two feed items agreeing on every field are equal. -/
theorem feedItem_eq_of_fields {a b : FeedItem} (ht : a.title = b.title)
    (hl : a.link = b.link) (hs : a.summary = b.summary)
    (hp : a.published = b.published) : a = b := by
  cases a; cases b; simp_all

/-- Merging never changes the record's link, along a whole fold. -/
theorem foldl_mergeInto_link (cs : List FeedItem) :
    ∀ c, (cs.foldl mergeInto c).link = c.link := by
  induction cs with
  | nil => intro c; rfl
  | cons x xs ih =>
    intro c
    rw [List.foldl_cons, ih, mergeInto_link]

/-- If the summary after a fold is still falsy, the starting record's and
every folded candidate's summaries were falsy. -/
theorem foldl_summary_falsy (cs : List FeedItem) :
    ∀ c, pyTruthyStrOpt ((cs.foldl mergeInto c).summary) = false →
      pyTruthyStrOpt c.summary = false ∧
        ∀ x ∈ cs, pyTruthyStrOpt x.summary = false := by
  induction cs with
  | nil => intro c h; exact ⟨h, by simp⟩
  | cons y ys ih =>
    intro c h
    rw [List.foldl_cons] at h
    obtain ⟨hhead, htail⟩ := ih (mergeInto c y) h
    rw [mergeInto_summary] at hhead
    have hcy : pyTruthyStrOpt c.summary = false ∧
        pyTruthyStrOpt y.summary = false := by
      split_ifs at hhead with hcond
      · exact absurd hcond.2 (by simp [hhead])
      · refine ⟨hhead, ?_⟩
        rcases not_and_or.mp hcond with hc | hy
        · exact absurd hhead (by simpa using hc)
        · simpa using hy
    refine ⟨hcy.1, fun x hx => ?_⟩
    rcases List.mem_cons.mp hx with rfl | hx2
    · exact hcy.2
    · exact htail x hx2

/-- If the published value after a fold is still `none`, the starting
record's and every folded candidate's published values were `none`. -/
theorem foldl_published_none (cs : List FeedItem) :
    ∀ c, (cs.foldl mergeInto c).published = none →
      c.published = none ∧ ∀ x ∈ cs, x.published = none := by
  induction cs with
  | nil => intro c h; exact ⟨h, by simp⟩
  | cons y ys ih =>
    intro c h
    rw [List.foldl_cons] at h
    obtain ⟨hhead, htail⟩ := ih (mergeInto c y) h
    rw [mergeInto_published] at hhead
    have hcy : c.published = none ∧ y.published = none := by
      split_ifs at hhead with hcond
      · exact absurd hcond.2 (by simp [hhead])
      · refine ⟨hhead, ?_⟩
        rcases not_and_or.mp hcond with hc | hy
        · exact absurd (Option.isNone_iff_eq_none.mpr hhead) hc
        · simpa using hy
    refine ⟨hcy.1, fun x hx => ?_⟩
    rcases List.mem_cons.mp hx with rfl | hx2
    · exact hcy.2
    · exact htail x hx2

/-- A record whose title differs from its slug title is frozen: no fold
changes its title. -/
theorem foldl_title_frozen (cs : List FeedItem) :
    ∀ c, c.title ≠ slug_to_title c.link →
      (cs.foldl mergeInto c).title = c.title := by
  induction cs with
  | nil => intro c _; rfl
  | cons y ys ih =>
    intro c hc
    rw [List.foldl_cons]
    have hm : (mergeInto c y).title = c.title := by
      rw [mergeInto_title, if_neg]
      intro hcond
      exact hc hcond.1
    rw [ih (mergeInto c y) (by rw [hm, mergeInto_link]; exact hc), hm]

/-- If the title after a fold equals the slug title of the record's link, the
starting title already did and every folded candidate's title is empty or
that same slug title. -/
theorem foldl_title_slug (cs : List FeedItem) :
    ∀ c, (cs.foldl mergeInto c).title = slug_to_title c.link →
      c.title = slug_to_title c.link ∧
        ∀ x ∈ cs, x.title = "" ∨ x.title = slug_to_title c.link := by
  induction cs with
  | nil => intro c h; exact ⟨h, by simp⟩
  | cons y ys ih =>
    intro c h
    rw [List.foldl_cons] at h
    have hlink : (mergeInto c y).link = c.link := mergeInto_link c y
    by_cases hct : c.title = slug_to_title c.link
    · by_cases hyt : y.title = ""
      · have hm : (mergeInto c y).title = c.title := by
          rw [mergeInto_title, if_neg]
          intro hcond
          exact hcond.2 hyt
        obtain ⟨-, htail⟩ := ih (mergeInto c y) (by rw [hlink]; exact h)
        refine ⟨hct, fun x hx => ?_⟩
        rcases List.mem_cons.mp hx with rfl | hx2
        · exact Or.inl hyt
        · rw [← hlink]; exact htail x hx2
      · have hm : (mergeInto c y).title = y.title := by
          rw [mergeInto_title, if_pos ⟨hct, hyt⟩]
        obtain ⟨hhead, htail⟩ := ih (mergeInto c y) (by rw [hlink]; exact h)
        have hy : y.title = slug_to_title c.link := by
          rw [← hm, hhead, hlink]
        refine ⟨hct, fun x hx => ?_⟩
        rcases List.mem_cons.mp hx with rfl | hx2
        · exact Or.inr hy
        · rw [← hlink]; exact htail x hx2
    · exfalso
      have hm : (mergeInto c y).title = c.title := by
        rw [mergeInto_title, if_neg]
        intro hcond
        exact hct hcond.1
      have hfr := foldl_title_frozen ys (mergeInto c y)
        (by rw [hm, hlink]; exact hct)
      rw [hfr, hm] at h
      exact hct h

/-- Absorption: folding a candidate a second time into the record its first
occurrence already contributed to changes nothing. -/
theorem foldl_mergeInto_absorb (cs : List FeedItem) (c x : FeedItem)
    (hx : x ∈ c :: cs) :
    mergeInto (cs.foldl mergeInto c) x = cs.foldl mergeInto c := by
  have hlink : (cs.foldl mergeInto c).link = c.link := foldl_mergeInto_link cs c
  apply feedItem_eq_of_fields
  · rw [mergeInto_title]
    split_ifs with hcond
    · obtain ⟨hrt, hxt⟩ := hcond
      rw [hlink] at hrt
      obtain ⟨hhead, htail⟩ := foldl_title_slug cs c hrt
      rcases List.mem_cons.mp hx with rfl | hx2
      · rw [hhead, hrt]
      · rcases htail x hx2 with he | hs
        · exact absurd he hxt
        · rw [hs, hrt]
    · rfl
  · rw [mergeInto_link]
  · rw [mergeInto_summary]
    split_ifs with hcond
    · obtain ⟨hrf, hxt⟩ := hcond
      obtain ⟨hhead, htail⟩ := foldl_summary_falsy cs c (by simpa using hrf)
      rcases List.mem_cons.mp hx with rfl | hx2
      · exact absurd hxt (by simp [hhead])
      · exact absurd hxt (by simp [htail x hx2])
    · rfl
  · rw [mergeInto_published]
    split_ifs with hcond
    · obtain ⟨hrn, hxs⟩ := hcond
      obtain ⟨hhead, htail⟩ := foldl_published_none cs c
        (Option.isNone_iff_eq_none.mp hrn)
      rcases List.mem_cons.mp hx with rfl | hx2
      · exact absurd hxs (by simp [hhead])
      · exact absurd hxs (by simp [htail x hx2])
    · rfl

set_option maxHeartbeats 1600000 in
/-- The merge-loop invariant.  Processing `rest` from the state `acc`
reached after `done` yields a state whose keys are distinct, whose keys are
exactly the links seen, whose records are the folds of their links'
contributors, and whose stored indices are the first-occurrence positions of
their links. -/
theorem mergeList_invariant (rest : List FeedItem) :
    ∀ (done : List FeedItem) (acc : List (FeedItem × Nat)),
      (acc.map (fun p => p.1.link)).Nodup →
      (∀ k, (∃ p ∈ acc, p.1.link = k) ↔ (∃ x ∈ done, x.link = k)) →
      (∀ p ∈ acc, ∃ c cs, contributors done p.1.link = c :: cs ∧
        p.1 = cs.foldl mergeInto c) →
      (∀ p ∈ acc, p.2 < done.length ∧
        (done.getD p.2 default).link = p.1.link ∧
        ∀ j < p.2, (done.getD j default).link ≠ p.1.link) →
      ((mergeList acc done.length rest).map (fun p => p.1.link)).Nodup ∧
      (∀ k, (∃ p ∈ mergeList acc done.length rest, p.1.link = k) ↔
        (∃ x ∈ done ++ rest, x.link = k)) ∧
      (∀ p ∈ mergeList acc done.length rest, ∃ c cs,
        contributors (done ++ rest) p.1.link = c :: cs ∧
        p.1 = cs.foldl mergeInto c) ∧
      (∀ p ∈ mergeList acc done.length rest, p.2 < (done ++ rest).length ∧
        ((done ++ rest).getD p.2 default).link = p.1.link ∧
        ∀ j < p.2, ((done ++ rest).getD j default).link ≠ p.1.link) := by
  induction rest with
  | nil =>
    intro done acc h1 h2 h3 h4
    rw [show mergeList acc done.length ([] : List FeedItem) = acc from rfl,
      List.append_nil]
    exact ⟨h1, h2, h3, h4⟩
  | cons item rest ih =>
    intro done acc h1 h2 h3 h4
    have hlen1 : done.length + 1 = (done ++ [item]).length := by simp
    have happ : (done ++ [item]) ++ rest = done ++ item :: rest := by simp
    have hcontrib : ∀ k, contributors (done ++ [item]) k =
        contributors done k ++ (if item.link = k then [item] else []) := by
      intro k
      unfold contributors
      rw [List.filter_append]
      congr 1
      by_cases h : item.link = k <;> simp [List.filter_singleton, h]
    by_cases hmem : acc.any (fun p => p.1.link = item.link) = true
    · have hkey : ∃ p ∈ acc, p.1.link = item.link := by
        simpa using hmem
      simp only [mergeList]
      rw [if_pos hmem, hlen1]
      set upd := fun p : FeedItem × Nat =>
        if p.1.link = item.link then (mergeInto p.1 item, p.2) else p with hupd
      have hfst : ∀ p : FeedItem × Nat, (upd p).1.link = p.1.link := by
        intro p
        rw [hupd]
        by_cases h : p.1.link = item.link <;> simp [h, mergeInto_link]
      have hsnd : ∀ p : FeedItem × Nat, (upd p).2 = p.2 := by
        intro p
        rw [hupd]
        by_cases h : p.1.link = item.link <;> simp [h]
      have hmaplink : (acc.map upd).map (fun p => p.1.link) =
          acc.map (fun p => p.1.link) := by
        rw [List.map_map]
        exact List.map_congr_left (fun p _ => hfst p)
      have h1' : ((acc.map upd).map (fun p => p.1.link)).Nodup := by
        rw [hmaplink]; exact h1
      have h2' : ∀ k, (∃ p ∈ acc.map upd, p.1.link = k) ↔
          (∃ x ∈ done ++ [item], x.link = k) := by
        intro k
        have hL : (∃ p ∈ acc.map upd, p.1.link = k) ↔
            (∃ p ∈ acc, p.1.link = k) := by
          constructor
          · rintro ⟨p, hp, hpk⟩
            obtain ⟨q, hq, rfl⟩ := List.mem_map.mp hp
            exact ⟨q, hq, by rw [← hfst q]; exact hpk⟩
          · rintro ⟨p, hp, hpk⟩
            exact ⟨upd p, List.mem_map.mpr ⟨p, hp, rfl⟩,
              by rw [hfst p]; exact hpk⟩
        rw [hL, h2 k]
        constructor
        · rintro ⟨x, hx, hxk⟩
          exact ⟨x, by simp [hx], hxk⟩
        · rintro ⟨x, hx, hxk⟩
          rcases List.mem_append.mp hx with hx2 | hx2
          · exact ⟨x, hx2, hxk⟩
          · obtain ⟨q, hq, hqk⟩ := hkey
            rw [List.mem_singleton.mp hx2] at hxk
            exact (h2 k).mp ⟨q, hq, by rw [hqk, ← hxk]⟩
      have i3' : ∀ p' ∈ acc.map upd, ∃ c cs,
          contributors (done ++ [item]) p'.1.link = c :: cs ∧
          p'.1 = cs.foldl mergeInto c := by
        rintro p' hp'
        obtain ⟨p, hp, rfl⟩ := List.mem_map.mp hp'
        obtain ⟨c, cs, hcon, hfold⟩ := h3 p hp
        by_cases hpk : p.1.link = item.link
        · have hupd_p : upd p = (mergeInto p.1 item, p.2) := by
            rw [hupd]; simp [hpk]
          refine ⟨c, cs ++ [item], ?_, ?_⟩
          · rw [hupd_p]
            simp only
            rw [mergeInto_link, hcontrib, hcon, if_pos hpk.symm]
            simp
          · rw [hupd_p]
            simp only
            rw [List.foldl_append, ← hfold, List.foldl_cons, List.foldl_nil]
        · have hupd_p : upd p = p := by
            rw [hupd]; simp [hpk]
          rw [hupd_p]
          refine ⟨c, cs, ?_, hfold⟩
          rw [hcontrib, hcon, if_neg (fun h => hpk h.symm)]
          simp
      have i4' : ∀ p' ∈ acc.map upd, p'.2 < (done ++ [item]).length ∧
          ((done ++ [item]).getD p'.2 default).link = p'.1.link ∧
          ∀ j < p'.2, ((done ++ [item]).getD j default).link ≠ p'.1.link := by
        rintro p' hp'
        obtain ⟨p, hp, rfl⟩ := List.mem_map.mp hp'
        obtain ⟨hlt, hget, hmin⟩ := h4 p hp
        rw [hsnd p, hfst p]
        refine ⟨?_, ?_, ?_⟩
        · simp only [List.length_append]
          omega
        · rw [List.getD_append done [item] default p.2 hlt]
          exact hget
        · intro j hj
          rw [List.getD_append done [item] default j (lt_trans hj hlt)]
          exact hmin j hj
      have hind := ih (done ++ [item]) (acc.map upd) h1' h2' i3' i4'
      rw [happ] at hind
      exact hind
    · have hnot : ∀ p ∈ acc, ¬ p.1.link = item.link := by
        intro p hp hcontra
        exact hmem (List.any_eq_true.mpr ⟨p, hp, by simp [hcontra]⟩)
      have hnotdone : ∀ x ∈ done, x.link ≠ item.link := by
        intro x hx hcontra
        obtain ⟨p, hp, hpk⟩ := (h2 item.link).mpr ⟨x, hx, hcontra⟩
        exact hnot p hp hpk
      simp only [mergeList]
      rw [if_neg hmem, hlen1]
      have i1' : ((acc ++ [(item, done.length)]).map
          (fun p => p.1.link)).Nodup := by
        rw [List.map_append, List.nodup_append]
        refine ⟨h1, by simp, ?_⟩
        intro a ha hb
        simp only [List.map_cons, List.map_nil, List.mem_singleton] at hb
        obtain ⟨p, hp, hpk⟩ := List.mem_map.mp ha
        exact hnot p hp (by rw [hpk, hb])
      have i2' : ∀ k, (∃ p ∈ acc ++ [(item, done.length)], p.1.link = k) ↔
          (∃ x ∈ done ++ [item], x.link = k) := by
        intro k
        constructor
        · rintro ⟨p, hp, hpk⟩
          rcases List.mem_append.mp hp with hp2 | hp2
          · obtain ⟨x, hx, hxk⟩ := (h2 k).mp ⟨p, hp2, hpk⟩
            exact ⟨x, by simp [hx], hxk⟩
          · rw [List.mem_singleton.mp hp2] at hpk
            exact ⟨item, by simp, hpk⟩
        · rintro ⟨x, hx, hxk⟩
          rcases List.mem_append.mp hx with hx2 | hx2
          · obtain ⟨p, hp, hpk⟩ := (h2 k).mpr ⟨x, hx2, hxk⟩
            exact ⟨p, by simp [hp], hpk⟩
          · rw [List.mem_singleton.mp hx2] at hxk
            exact ⟨(item, done.length), by simp, hxk⟩
      have i3' : ∀ p' ∈ acc ++ [(item, done.length)], ∃ c cs,
          contributors (done ++ [item]) p'.1.link = c :: cs ∧
          p'.1 = cs.foldl mergeInto c := by
        rintro p' hp'
        rcases List.mem_append.mp hp' with hp2 | hp2
        · obtain ⟨c, cs, hcon, hfold⟩ := h3 p' hp2
          refine ⟨c, cs, ?_, hfold⟩
          rw [hcontrib, hcon, if_neg (fun h => hnot p' hp2 h.symm)]
          simp
        · rw [List.mem_singleton.mp hp2]
          refine ⟨item, [], ?_, rfl⟩
          simp only
          rw [hcontrib]
          have hempty : contributors done item.link = [] :=
            List.filter_eq_nil_iff.mpr
              (fun x hx => by simpa using hnotdone x hx)
          rw [hempty, if_pos rfl]
          simp
      have i4' : ∀ p' ∈ acc ++ [(item, done.length)],
          p'.2 < (done ++ [item]).length ∧
          ((done ++ [item]).getD p'.2 default).link = p'.1.link ∧
          ∀ j < p'.2, ((done ++ [item]).getD j default).link ≠ p'.1.link := by
        rintro p' hp'
        rcases List.mem_append.mp hp' with hp2 | hp2
        · obtain ⟨hlt, hget, hmin⟩ := h4 p' hp2
          refine ⟨?_, ?_, ?_⟩
          · simp only [List.length_append]
            omega
          · rw [List.getD_append done [item] default p'.2 hlt]
            exact hget
          · intro j hj
            rw [List.getD_append done [item] default j (lt_trans hj hlt)]
            exact hmin j hj
        · rw [List.mem_singleton.mp hp2]
          refine ⟨by simp, ?_, ?_⟩
          · simp only
            rw [List.getD_append_right done [item] default done.length le_rfl]
            simp
          · intro j hj
            simp only at hj ⊢
            rw [List.getD_append done [item] default j hj]
            have hmemj : done.getD j default ∈ done := by
              rw [List.getD_eq_getElem?_getD, List.getElem?_eq_getElem hj]
              exact List.getElem_mem hj
            exact hnotdone _ hmemj
      have hind := ih (done ++ [item]) (acc ++ [(item, done.length)])
        i1' i2' i3' i4'
      rw [happ] at hind
      exact hind

/-- The merge-loop facts for a whole candidate list. -/
theorem mergeList_full (items : List FeedItem) :
    ((mergeList [] 0 items).map (fun p => p.1.link)).Nodup ∧
    (∀ k, (∃ p ∈ mergeList [] 0 items, p.1.link = k) ↔
      (∃ x ∈ items, x.link = k)) ∧
    (∀ p ∈ mergeList [] 0 items, ∃ c cs,
      contributors items p.1.link = c :: cs ∧ p.1 = cs.foldl mergeInto c) ∧
    (∀ p ∈ mergeList [] 0 items, p.2 < items.length ∧
      (items.getD p.2 default).link = p.1.link ∧
      ∀ j < p.2, (items.getD j default).link ≠ p.1.link) := by
  have h := mergeList_invariant items [] []
    (by simp) (by simp) (by simp) (by simp)
  simpa using h

/-- The stored index of a merged entry is the index of its link's first
occurrence in the candidate list. -/
theorem firstLinkIdx_of_merged (items : List FeedItem) (p : FeedItem × Nat)
    (hp : p ∈ mergeList [] 0 items) :
    firstLinkIdx items p.1.link = p.2 := by
  obtain ⟨-, -, -, hidx⟩ := mergeList_full items
  obtain ⟨hlt, hget, hmin⟩ := hidx p hp
  unfold firstLinkIdx
  rw [List.findIdx_eq hlt]
  constructor
  · rw [List.getD_eq_getElem?_getD, List.getElem?_eq_getElem hlt] at hget
    simp only [Option.getD_some] at hget
    simp [hget]
  · intro j hj
    have hjlt : j < items.length := lt_trans hj hlt
    have hne := hmin j hj
    rw [List.getD_eq_getElem?_getD, List.getElem?_eq_getElem hjlt] at hne
    simp only [Option.getD_some] at hne
    simp [hne]

/-- The merge loop over a concatenation processes the parts in turn. -/
theorem mergeList_append (l1 l2 : List FeedItem) :
    ∀ (acc : List (FeedItem × Nat)) (i : Nat),
      mergeList acc i (l1 ++ l2) =
        mergeList (mergeList acc i l1) (i + l1.length) l2 := by
  induction l1 with
  | nil => intro acc i; simp [mergeList]
  | cons x xs ih =>
    intro acc i
    simp only [List.cons_append, mergeList, List.length_cons, List.append_eq]
    split_ifs with h
    · rw [ih, show i + 1 + xs.length = i + (xs.length + 1) from by omega]
    · rw [ih, show i + 1 + xs.length = i + (xs.length + 1) from by omega]

/-- When every incoming candidate is absorbed by the record already stored
for its link, the merge loop leaves the state unchanged. -/
theorem mergeList_noop (M : List FeedItem) :
    ∀ (st : List (FeedItem × Nat)) (n : Nat),
      (st.map (fun p => p.1.link)).Nodup →
      (∀ x ∈ M, ∃ p ∈ st, p.1.link = x.link ∧ mergeInto p.1 x = p.1) →
      mergeList st n M = st := by
  induction M with
  | nil => intro st n _ _; rfl
  | cons x xs ih =>
    intro st n hnd habs
    obtain ⟨p, hp, hpl, hpm⟩ := habs x (by simp)
    have hany : st.any (fun q => q.1.link = x.link) = true :=
      List.any_eq_true.mpr ⟨p, hp, by simp [hpl]⟩
    simp only [mergeList]
    rw [if_pos hany]
    have hmap : st.map (fun q =>
        if q.1.link = x.link then (mergeInto q.1 x, q.2) else q) = st := by
      conv_rhs => rw [← List.map_id st]
      apply List.map_congr_left
      intro q hq
      by_cases hql : q.1.link = x.link
      · have hqp : q = p := List.inj_on_of_nodup_map hnd hq hp (by rw [hql, hpl])
        subst hqp
        simp only [hql, if_pos, id_eq]
        rw [hpm]
      · simp [hql]
    rw [hmap]
    exact ih st (n + 1) hnd (fun y hy => habs y (List.mem_cons_of_mem _ hy))

/-- Claim C9: merging a candidate list concatenated with itself yields
exactly the same ranked output as merging it once — the second copy's
candidates are all absorbed by the records the first copy established, and
first-seen indices are unchanged. -/
theorem claim_C9 (items : List FeedItem) (max_items : Int) :
    dedupe_and_rank (items ++ items) max_items =
      dedupe_and_rank items max_items := by
  have hst : mergeList [] 0 (items ++ items) = mergeList [] 0 items := by
    rw [mergeList_append]
    obtain ⟨hnd, hkeys, hrec, -⟩ := mergeList_full items
    apply mergeList_noop
    · exact hnd
    · intro x hx
      obtain ⟨p, hp, hpl⟩ := (hkeys x.link).mpr ⟨x, hx, rfl⟩
      refine ⟨p, hp, hpl, ?_⟩
      obtain ⟨c, cs, hcon, hfold⟩ := hrec p hp
      have hxmem : x ∈ c :: cs := by
        rw [← hcon]
        unfold contributors
        rw [hpl]
        exact List.mem_filter.mpr ⟨hx, by simp⟩
      rw [hfold]
      exact foldl_mergeInto_absorb cs c x hxmem
  unfold dedupe_and_rank
  rw [hst]

/-- Claim C1: in the output of `dedupe_and_rank`, every dated record precedes
every undated one; among dated records timestamps are non-increasing; and
records tied on the date key (in particular all undated records) appear in
ascending order of the index at which their link first occurred in the
input. -/
theorem claim_C1 (items : List FeedItem) (max_items : Int) :
    (dedupe_and_rank items max_items).Pairwise (fun a b =>
      (b.published.isSome = true → a.published.isSome = true) ∧
      (∀ ta tb, a.published = some ta → b.published = some tb →
        tb.timestamp ≤ ta.timestamp) ∧
      (dateKey a = dateKey b →
        firstLinkIdx items a.link < firstLinkIdx items b.link)) := by
  obtain ⟨hnd, -, -, hidx⟩ := mergeList_full items
  have hsorted : (List.insertionSort rankLE (mergeList [] 0 items)).Pairwise
      rankLE := List.sorted_insertionSort rankLE (mergeList [] 0 items)
  have hperm := List.perm_insertionSort rankLE (mergeList [] 0 items)
  have hnds : ((List.insertionSort rankLE (mergeList [] 0 items)).map
      (fun p => p.1.link)).Nodup :=
    ((hperm.map (fun p => p.1.link)).nodup_iff).mpr hnd
  have hpairne : (List.insertionSort rankLE (mergeList [] 0 items)).Pairwise
      (fun p q => p.1.link ≠ q.1.link) := List.pairwise_map.mp hnds
  have hcomb := hsorted.and hpairne
  simp only [dedupe_and_rank]
  have hsub : (pySliceTo max_items
      (List.insertionSort rankLE (mergeList [] 0 items))).Sublist
      (List.insertionSort rankLE (mergeList [] 0 items)) := by
    unfold pySliceTo
    split_ifs <;> exact List.take_sublist _ _
  have hpair2 := List.Pairwise.sublist hsub hcomb
  rw [List.pairwise_map]
  refine List.Pairwise.imp_of_mem ?_ hpair2
  intro p q hpmem hqmem hrel
  obtain ⟨hle, hlinkne⟩ := hrel
  have hpst : p ∈ mergeList [] 0 items := hperm.subset (hsub.subset hpmem)
  have hqst : q ∈ mergeList [] 0 items := hperm.subset (hsub.subset hqmem)
  have hpidx := firstLinkIdx_of_merged items p hpst
  have hqidx := firstLinkIdx_of_merged items q hqst
  obtain ⟨hplt, hpget, -⟩ := hidx p hpst
  obtain ⟨hqlt, hqget, -⟩ := hidx q hqst
  unfold rankLE keyLE rankKey at hle
  simp only [decide_eq_true_eq] at hle
  refine ⟨?_, ?_, ?_⟩
  · intro hq
    by_contra hp
    have hpnone : p.1.published = none := by
      cases hpp : p.1.published
      · rfl
      · rw [hpp] at hp
        simp at hp
    obtain ⟨dq, hdq⟩ := Option.isSome_iff_exists.mp hq
    simp [dateKey, hpnone, hdq] at hle
  · intro ta tb hta htb
    simp [dateKey, hta, htb] at hle
    omega
  · intro hdk
    have h1 : (dateKey p.1).1 = (dateKey q.1).1 := by rw [hdk]
    have h2 : (dateKey p.1).2 = (dateKey q.1).2 := by rw [hdk]
    have hple : p.2 ≤ q.2 := by omega
    have hne : p.2 ≠ q.2 := by
      intro heq
      apply hlinkne
      rw [← hpget, ← hqget, heq]
    rw [hpidx, hqidx]
    omega


/-! ## Sanity checks of the library model against CPython behaviour -/

theorem sanity_urljoin_absolute_path :
    urljoin "https://e.com/blog" "/a" = "https://e.com/a" := by decide

theorem sanity_urljoin_relative :
    urljoin "https://e.com/blog/" "post-one" = "https://e.com/blog/post-one" := by decide

theorem sanity_urljoin_empty :
    urljoin "https://e.com/blog" "" = "https://e.com/blog" := by decide

theorem sanity_urljoin_dots :
    urljoin "https://e.com/a/b/../c" "x" = "https://e.com/a/x" := by decide

theorem sanity_urlparse_path :
    (urlparse "https://e.com/blog?q=1#f").path = "/blog" := by decide

theorem sanity_urlparse_netloc :
    (urlparse "https://e.com").netloc = "e.com" := by decide

theorem sanity_same_url_trailing_slash :
    same_url "https://a.com/x/" "https://a.com/x" = true := by decide

theorem sanity_same_url_query :
    same_url "https://a.com/x?q=1" "https://a.com/x" = true := by decide

theorem sanity_same_url_differs :
    same_url "https://a.com/x" "https://a.com/y" = false := by decide

theorem sanity_slug_to_title :
    slug_to_title "https://e.com/posts/my-first_post/" = "My First Post" := by decide

theorem sanity_slug_to_title_fallback :
    slug_to_title "https://e.com/" = "https://e.com/" := by decide

theorem sanity_clean_text :
    clean_text (some "  a  b\t c ") = some "a b c" := by decide

theorem sanity_normalize_link_fragment :
    normalize_link "#top" "https://example.com/blog" = none := by decide

theorem sanity_normalize_link_mailto :
    normalize_link "mailto:x@y.z" "https://example.com/blog" = none := by decide

theorem sanity_normalize_link_scheme :
    normalize_link "ftp://e.com/a" "https://e.com/blog" = none := by decide
